import Mathlib

/-!
# Verification of the MBAR mixture-model analysis core

Shallow embedding, over the real numbers, of `src/mics/MBAR.py` (class `MBAR`,
methods `__initialize__` and `__reweight__`).  The file models:

* the per-sample normalizing log-denominator, the MBAR fixed-point map and the
  weight matrix of §4.1 of the design document (the self-consistent solver and
  the weight computation live in the external `pymbar` library, not under
  `src/`, so they are modelled from the spec);
* the block quantities `flnpi`, `u0` and `P` computed at lines 48–50 of
  `MBAR.py` (these are in the source and are translated directly);
* the overlap matrix of line 56, `N_k * matmul(W.T, W)` with NumPy
  broadcasting of the length-K vector `N_k` over columns;
* the zero-observable branch (lines 76–79) and the delta-method Jacobian
  (lines 88–96) of `__reweight__`;
* the SVD-based formulation of the asymptotic covariance matrix allowed by
  §4.1 of the spec (the concrete computation is inside `pymbar`).

Machine floating point is idealized as exact real arithmetic, which is the
reading the spec itself takes ("to within numerical tolerance").
-/

set_option maxHeartbeats 1000000
set_option linter.unusedVariables false

noncomputable section

namespace MICS

open Matrix

/-- Log-sum-exp of a finite vector: `log (Σ n, exp (a n))`.  This is the leaf
utility `mics.utils.logsumexp`; over the reals the numerically stable
max-shifted implementation coincides with the direct formula. -/
def logsumexp {N : ℕ} (a : Fin N → ℝ) : ℝ :=
  Real.log (∑ n, Real.exp (a n))

/-- Modelled from the spec (§4.1): the per-sample normalizing log-denominator
`c_n = logsumexp_j (log N_j + f_j − U[j][n])`.  The solver computing it is the
external `pymbar` library, absent from `src/`. -/
def mbarDenom {K N : ℕ} (U : Fin K → Fin N → ℝ) (Nk : Fin K → ℕ)
    (f : Fin K → ℝ) (n : Fin N) : ℝ :=
  logsumexp fun j => Real.log (Nk j) + f j - U j n

/-- Modelled from the spec (§4.1): the MBAR fixed-point map
`f_k ↦ −logsumexp_n [ −U[k][n] − c_n ]` whose fixed points are the MBAR free
energies.  The iteration performing the solve is inside `pymbar`. -/
def mbarMap {K N : ℕ} (U : Fin K → Fin N → ℝ) (Nk : Fin K → ℕ)
    (f : Fin K → ℝ) (k : Fin K) : ℝ :=
  -logsumexp fun n => -U k n - mbarDenom U Nk f n

/-- Modelled from the spec (§4.1 and §8): postcondition of a converged solve —
the returned free-energy vector reproduces itself through the fixed-point map
to within the convergence tolerance. -/
def SolveConverged {K N : ℕ} (U : Fin K → Fin N → ℝ) (Nk : Fin K → ℕ)
    (tol : ℝ) (f : Fin K → ℝ) : Prop :=
  ∀ k, |f k - mbarMap U Nk f k| ≤ tol

/-- Modelled from the spec (§4.1): weight-matrix entry
`W[n][k] = exp (f_k − U[k][n] − c_n)`, computed by `pymbar` as
`exp (Log_W_nk)` and consumed by `MBAR.py` at lines 52–56. -/
def W {K N : ℕ} (U : Fin K → Fin N → ℝ) (Nk : Fin K → ℕ)
    (f : Fin K → ℝ) (n : Fin N) (k : Fin K) : ℝ :=
  Real.exp (f k - U k n - mbarDenom U Nk f n)

/-- The N×K weight matrix (`mb.W_nk` in the source). -/
def Wmat {K N : ℕ} (U : Fin K → Fin N → ℝ) (Nk : Fin K → ℕ)
    (f : Fin K → ℝ) : Matrix (Fin N) (Fin K) ℝ :=
  Matrix.of fun n k => W U Nk f n k

/-- Overlap matrix, line 56 of `MBAR.py`:
`mixture.Overlap = mb.N_k * np.matmul(mb.W_nk.T, mb.W_nk)`.
NumPy broadcasting multiplies column `j` of the K×K product by `N_k[j]`. -/
def Overlap {K N : ℕ} (U : Fin K → Fin N → ℝ) (Nk : Fin K → ℕ)
    (f : Fin K → ℝ) : Matrix (Fin K) (Fin K) ℝ :=
  fun i j => (Nk j : ℝ) * ((Wmat U Nk f)ᵀ * Wmat U Nk f) i j

/-- Line 48 of `MBAR.py`: `flnpi = (mixture.f + np.log(n/sum(n)))[:, np.newaxis]`,
the free energies shifted by the log mixture proportions. -/
def flnpi {K : ℕ} (f : Fin K → ℝ) (Nk : Fin K → ℕ) (k : Fin K) : ℝ :=
  f k + Real.log ((Nk k : ℝ) / ∑ j, (Nk j : ℝ))

/-- Line 49 of `MBAR.py` for one sample block:
`mixture.u0 = [-logsumexp(flnpi - u) for u in mixture.u]`.  The computation is
per block; `ublk` is the K×(block size) slice of the potential for the block. -/
def u0 {K M : ℕ} (f : Fin K → ℝ) (Nk : Fin K → ℕ)
    (ublk : Fin K → Fin M → ℝ) (n : Fin M) : ℝ :=
  -logsumexp fun k => flnpi f Nk k - ublk k n

/-- Line 50 of `MBAR.py` for one sample block:
`self.P = [np.exp(flnpi - mixture.u[i] + mixture.u0[i]) for i in range(m)]`. -/
def P {K M : ℕ} (f : Fin K → ℝ) (Nk : Fin K → ℕ)
    (ublk : Fin K → Fin M → ℝ) (k : Fin K) (n : Fin M) : ℝ :=
  Real.exp (flnpi f Nk k - ublk k n + u0 f Nk ublk n)

/-- Lines 61–62 of `MBAR.py`: the two-row reduced-potential block of a
reweighting query, `u_ln = stack([hstack(u), hstack(x[ref,:] ...)])`:
row 0 = the new (target) state, row 1 = the reference state `ref`. -/
def u_ln {K N : ℕ} (U : Fin K → Fin N → ℝ) (unew : Fin N → ℝ) (ref : Fin K) :
    Fin 2 → Fin N → ℝ :=
  ![unew, fun n => U ref n]

/-- Modelled from the spec (§4.2 step 2): per-state free energy of the
augmented problem, reusing the already-fitted global normalization `c_n`
(the computation is the `computeExpectationsInner` routine of `pymbar`,
not under `src/`). -/
def fhat {K N : ℕ} (U : Fin K → Fin N → ℝ) (Nk : Fin K → ℕ) (f : Fin K → ℝ)
    (urow : Fin N → ℝ) : ℝ :=
  -logsumexp fun n => -urow n - mbarDenom U Nk f n

/-- Lines 76–79 of `MBAR.py` (zero-observable branch of `__reweight__`):
`fu = (inner f)[0] - (inner f)[1]`,
`d2fu = Theta[0,0] + Theta[1,1] - 2*Theta[0,1]`,
returned as `np.array([fu]), np.array([[d2fu]])`.  The augmented free
energies are modelled by `fhat`; the augmented covariance `Th` is a parameter
(it is produced inside `pymbar`). -/
def reweight0 {K N : ℕ} (U : Fin K → Fin N → ℝ) (Nk : Fin K → ℕ) (f : Fin K → ℝ)
    (unew : Fin N → ℝ) (ref : Fin K) (Th : Matrix (Fin 2) (Fin 2) ℝ) :
    (Fin 1 → ℝ) × Matrix (Fin 1) (Fin 1) ℝ :=
  (fun _ => fhat U Nk f (u_ln U unew ref 0) - fhat U Nk f (u_ln U unew ref 1),
   fun _ _ => Th 0 0 + Th 1 1 - 2 * Th 0 1)

/-- Lines 88–94 of `MBAR.py`: the delta-method Jacobian `G`, built as a
`2(n+1) × (n+1)` zero matrix with `G[n+1,0] = -1.0`, `G[2*n+1,0] = 1.0` and,
for each observable `i` in `range(n)`, `G[i,i+1] = delta[i]`,
`G[n+1+i,i+1] = -delta[i]`.  The assignments touch pairwise distinct entries,
so their net effect is the case split below. -/
def Gmat (nO : ℕ) (delta : Fin nO → ℝ) :
    Matrix (Fin (2 * (nO + 1))) (Fin (nO + 1)) ℝ := fun r c =>
  if (r : ℕ) = nO + 1 ∧ (c : ℕ) = 0 then -1
  else if (r : ℕ) = 2 * nO + 1 ∧ (c : ℕ) = 0 then 1
  else if h3 : (r : ℕ) + 1 = (c : ℕ) then delta ⟨(r : ℕ), by have := c.isLt; omega⟩
  else if h4 : (r : ℕ) = nO + (c : ℕ) ∧ 1 ≤ (c : ℕ) then
    -(delta ⟨(c : ℕ) - 1, by have := c.isLt; omega⟩)
  else 0

/-- Line 96 of `MBAR.py`: the returned covariance `multi_dot([G.T, Theta, G])`. -/
def reweightCov (nO : ℕ) (delta : Fin nO → ℝ)
    (Th : Matrix (Fin (2 * (nO + 1))) (Fin (2 * (nO + 1))) ℝ) :
    Matrix (Fin (nO + 1)) (Fin (nO + 1)) ℝ :=
  (Gmat nO delta)ᵀ * Th * Gmat nO delta

/-- Error taxonomy of the reweighting entry (spec §7). -/
inductive ReweightError
  | dimensionMismatch
  | singularCovariance

/-- Modelled from the spec (§4.2 / §7; this validation lives outside `src/`):
an observable vector whose length differs from the pooled sample count is
rejected with `DimensionMismatchError` before any computation. -/
def checkObservableLengths (N : ℕ) (ys : List (List ℝ)) : Except ReweightError Unit :=
  if ys.all fun y => y.length == N then Except.ok ()
  else Except.error ReweightError.dimensionMismatch

/-- Modelled from the spec: the reweighting entry runs the validation first
and only on success performs the actual computation. -/
def guardedReweight {α : Type} (N : ℕ) (ys : List (List ℝ))
    (compute : Unit → α) : Except ReweightError α :=
  (checkObservableLengths N ys).map fun _ => compute ()

/-- Modelled from the spec (§4.1): the SVD-based formulation of the asymptotic
covariance matrix, `Θ = V·Σ·P·Σ·Vᵀ`, where `V` and the diagonal `Σ` come from
a spectral decomposition `Wᵀ·W = V·Σ²·Vᵀ` of the weight matrix and `P` is the
generalized-inverse factor `pinv(I − Σ·Vᵀ·diag(N)·V·Σ)`.  The concrete
computation is `pymbar._computeAsymptoticCovarianceMatrix`, not under `src/`;
here `V`, `Σ`, `P` are parameters constrained by hypotheses where needed. -/
def thetaSVD {L : ℕ} (V Sd Pm : Matrix (Fin L) (Fin L) ℝ) :
    Matrix (Fin L) (Fin L) ℝ :=
  V * Sd * Pm * Sd * Vᵀ

/-- Modelled from the spec (§4.2 step 2): the weight matrix of the augmented
two-state (target, reference) problem, reusing the already-fitted global
normalization `c_n` (computed inside `pymbar`, not under `src/`). -/
def Waug {K N : ℕ} (U : Fin K → Fin N → ℝ) (Nk : Fin K → ℕ) (f : Fin K → ℝ)
    (uln : Fin 2 → Fin N → ℝ) : Matrix (Fin N) (Fin 2) ℝ :=
  Matrix.of fun n a => Real.exp (fhat U Nk f (uln a) - uln a n - mbarDenom U Nk f n)

/-- One-state, one-sample all-zero concrete mixture used as witness input. -/
def U1 : Fin 1 → Fin 1 → ℝ := fun _ _ => 0

/-- Sample count vector of the concrete witness mixture. -/
def Nk1 : Fin 1 → ℕ := fun _ => 1

/-- Free-energy vector of the concrete witness mixture. -/
def f1 : Fin 1 → ℝ := fun _ => 0

/-- Concrete orthogonal factor used as witness input. -/
def Vw : Matrix (Fin 2) (Fin 2) ℝ :=
  Matrix.of ![![Real.sqrt 2 / 2, Real.sqrt 2 / 2], ![Real.sqrt 2 / 2, -(Real.sqrt 2 / 2)]]

/-- Concrete diagonal factor used as witness input. -/
def Sw : Matrix (Fin 2) (Fin 2) ℝ :=
  Matrix.of ![![Real.sqrt 2, 0], ![0, 0]]

/-- Shifting every component of the argument of `logsumexp` down by a constant
shifts the result down by the same constant (needs a nonempty index type). -/
theorem logsumexp_sub_const {K : ℕ} (hK : 0 < K) (a : Fin K → ℝ) (c : ℝ) :
    logsumexp (fun j => a j - c) = logsumexp a - c := by
  have hne : Nonempty (Fin K) := ⟨⟨0, hK⟩⟩
  have hpos : (0 : ℝ) < ∑ j, Real.exp (a j) :=
    Finset.sum_pos (fun j _ => Real.exp_pos _) Finset.univ_nonempty
  have hterm : ∀ j : Fin K, Real.exp (a j - c) = Real.exp (a j) * Real.exp (-c) := by
    intro j
    rw [sub_eq_add_neg, Real.exp_add]
  rw [logsumexp, logsumexp, Finset.sum_congr rfl fun j _ => hterm j, ← Finset.sum_mul,
    Real.log_mul hpos.ne' (Real.exp_ne_zero _), Real.log_exp]
  ring

/-- A uniform shift of the potential matrix shifts the per-sample normalizer
down by the same constant. -/
theorem mbarDenom_shift {K N : ℕ} (hK : 0 < K) (U : Fin K → Fin N → ℝ)
    (Nk : Fin K → ℕ) (f : Fin K → ℝ) (c : ℝ) (n : Fin N) :
    mbarDenom (fun k n => U k n + c) Nk f n = mbarDenom U Nk f n - c := by
  rw [mbarDenom, mbarDenom]
  have h : (fun j => Real.log (Nk j) + f j - (U j n + c)) =
      fun j => (Real.log (Nk j) + f j - U j n) - c := by
    funext j
    ring
  rw [h, logsumexp_sub_const hK]

/-- Entry form of the overlap matrix (helper shared by several results). -/
theorem overlap_apply {K N : ℕ} (U : Fin K → Fin N → ℝ) (Nk : Fin K → ℕ)
    (f : Fin K → ℝ) (i j : Fin K) :
    Overlap U Nk f i j = (Nk j : ℝ) * ∑ n, W U Nk f n i * W U Nk f n j := by
  simp [Overlap, Matrix.mul_apply, Wmat]

/-- A product `V·Σ·P·Σ·Vᵀ` with symmetric middle factors is symmetric
(helper shared by several results). -/
theorem thetaSVD_symm {L : ℕ} (V Sd Pm : Matrix (Fin L) (Fin L) ℝ)
    (hPm : Pmᵀ = Pm) (hS : Sdᵀ = Sd) :
    (thetaSVD V Sd Pm)ᵀ = thetaSVD V Sd Pm := by
  rw [thetaSVD]
  simp [Matrix.transpose_mul, Matrix.transpose_transpose, hPm, hS, Matrix.mul_assoc]

/-- Entry form of a matrix-vector product (helper). -/
theorem mulVec_entry {m n : ℕ} (M : Matrix (Fin m) (Fin n) ℝ) (v : Fin n → ℝ)
    (i : Fin m) : (M *ᵥ v) i = ∑ j, M i j * v j :=
  rfl

/-- Kernel lemma for the delta-method variance (helper): if the direction
`(1, −1)` is annihilated by `V·Σ²·Vᵀ`, with `VᵀV = 1` and `Σ` diagonal, then
the quadratic form `Θ[0][0] + Θ[1][1] − 2·Θ[0][1]` of `Θ = V·Σ·P·Σ·Vᵀ`
vanishes, whatever the middle factor `P` of the generalized inverse is. -/
theorem thetaSVD_kernel_quadform (V Sd Pm : Matrix (Fin 2) (Fin 2) ℝ)
    (hV : Vᵀ * V = 1) (hdiag : ∀ a b : Fin 2, a ≠ b → Sd a b = 0)
    (hPm : Pmᵀ = Pm)
    (hMe : (V * (Sd * Sd) * Vᵀ) *ᵥ ![(1 : ℝ), -1] = 0) :
    thetaSVD V Sd Pm 0 0 + thetaSVD V Sd Pm 1 1 - 2 * thetaSVD V Sd Pm 0 1 = 0 := by
  have hd01 : Sd 0 1 = 0 := hdiag 0 1 (by decide)
  have hd10 : Sd 1 0 = 0 := hdiag 1 0 (by decide)
  have hSS : (Sd * Sd) *ᵥ (Vᵀ *ᵥ ![(1 : ℝ), -1]) = 0 := by
    have hA : Vᵀ * (V * (Sd * Sd) * Vᵀ) = Sd * Sd * Vᵀ := by
      rw [← Matrix.mul_assoc, ← Matrix.mul_assoc, hV, Matrix.one_mul]
    rw [Matrix.mulVec_mulVec, ← hA, ← Matrix.mulVec_mulVec, hMe, Matrix.mulVec_zero]
  have e00 : (Sd * Sd) 0 0 = Sd 0 0 * Sd 0 0 := by
    rw [Matrix.mul_apply, Fin.sum_univ_two, hd01, hd10, mul_zero, add_zero]
  have e01 : (Sd * Sd) 0 1 = 0 := by
    rw [Matrix.mul_apply, Fin.sum_univ_two, hd01, mul_zero, zero_mul, add_zero]
  have e10 : (Sd * Sd) 1 0 = 0 := by
    rw [Matrix.mul_apply, Fin.sum_univ_two, hd10, mul_zero, zero_mul, add_zero]
  have e11 : (Sd * Sd) 1 1 = Sd 1 1 * Sd 1 1 := by
    rw [Matrix.mul_apply, Fin.sum_univ_two, hd10, zero_mul, zero_add]
  have h0 := congrFun hSS 0
  have h1 := congrFun hSS 1
  rw [mulVec_entry, Fin.sum_univ_two, Pi.zero_apply, e00, e01, zero_mul, add_zero] at h0
  rw [mulVec_entry, Fin.sum_univ_two, Pi.zero_apply, e10, e11, zero_mul, zero_add] at h1
  have st0 : Sd 0 0 * (Vᵀ *ᵥ ![(1 : ℝ), -1]) 0 = 0 := by
    have hsq : (Sd 0 0 * (Vᵀ *ᵥ ![(1 : ℝ), -1]) 0) * (Sd 0 0 * (Vᵀ *ᵥ ![(1 : ℝ), -1]) 0)
        = 0 := by
      calc (Sd 0 0 * (Vᵀ *ᵥ ![(1 : ℝ), -1]) 0) * (Sd 0 0 * (Vᵀ *ᵥ ![(1 : ℝ), -1]) 0)
          = (Sd 0 0 * Sd 0 0 * (Vᵀ *ᵥ ![(1 : ℝ), -1]) 0) * (Vᵀ *ᵥ ![(1 : ℝ), -1]) 0 := by
            ring
        _ = 0 := by rw [h0, zero_mul]
    exact mul_self_eq_zero.mp hsq
  have st1 : Sd 1 1 * (Vᵀ *ᵥ ![(1 : ℝ), -1]) 1 = 0 := by
    have hsq : (Sd 1 1 * (Vᵀ *ᵥ ![(1 : ℝ), -1]) 1) * (Sd 1 1 * (Vᵀ *ᵥ ![(1 : ℝ), -1]) 1)
        = 0 := by
      calc (Sd 1 1 * (Vᵀ *ᵥ ![(1 : ℝ), -1]) 1) * (Sd 1 1 * (Vᵀ *ᵥ ![(1 : ℝ), -1]) 1)
          = (Sd 1 1 * Sd 1 1 * (Vᵀ *ᵥ ![(1 : ℝ), -1]) 1) * (Vᵀ *ᵥ ![(1 : ℝ), -1]) 1 := by
            ring
        _ = 0 := by rw [h1, zero_mul]
    exact mul_self_eq_zero.mp hsq
  have hSt : Sd *ᵥ (Vᵀ *ᵥ ![(1 : ℝ), -1]) = 0 := by
    have hcomp : ∀ a : Fin 2, (Sd *ᵥ (Vᵀ *ᵥ ![(1 : ℝ), -1])) a = 0 := by
      rw [Fin.forall_fin_two]
      constructor
      · rw [mulVec_entry, Fin.sum_univ_two, hd01, zero_mul, add_zero]
        exact st0
      · rw [mulVec_entry, Fin.sum_univ_two, hd10, zero_mul, zero_add]
        exact st1
    funext a
    exact hcomp a
  have hTe : thetaSVD V Sd Pm *ᵥ ![(1 : ℝ), -1] = 0 := by
    rw [thetaSVD, ← Matrix.mulVec_mulVec, ← Matrix.mulVec_mulVec, hSt,
      Matrix.mulVec_zero]
  have hSsym : Sdᵀ = Sd := by
    funext a b
    by_cases hab : a = b
    · rw [hab, Matrix.transpose_apply]
    · rw [Matrix.transpose_apply, hdiag b a (Ne.symm hab), hdiag a b hab]
  have hsym := thetaSVD_symm V Sd Pm hPm hSsym
  have h10 : thetaSVD V Sd Pm 1 0 = thetaSVD V Sd Pm 0 1 := by
    have h := congrFun (congrFun hsym 0) 1
    rw [Matrix.transpose_apply] at h
    exact h
  have h0e := congrFun hTe 0
  have h1e := congrFun hTe 1
  rw [mulVec_entry, Fin.sum_univ_two, Pi.zero_apply, Matrix.cons_val_zero,
    Matrix.cons_val_one, Matrix.head_cons] at h0e h1e
  linarith [h0e, h1e, h10]

/-- Claim C1: for a valid input (positive tolerance) and a converged solve,
every component of the returned free-energy vector satisfies the MBAR
fixed-point equation
`f_k = −logsumexp_n [ −U[k][n] − logsumexp_j (log N_j + f_j − U[j][n]) ]`
to within the convergence tolerance. -/
theorem mbar_self_consistency_residual {K N : ℕ} (U : Fin K → Fin N → ℝ)
    (Nk : Fin K → ℕ) (tol : ℝ) (f : Fin K → ℝ)
    (htol : 0 < tol) (hconv : SolveConverged U Nk tol f) (k : Fin K) :
    |f k - (-(Real.log (∑ n, Real.exp (-U k n -
        Real.log (∑ j, Real.exp (Real.log (Nk j) + f j - U j n))))))| ≤ tol := by
  have h := hconv k
  simpa [mbarMap, mbarDenom, logsumexp] using h

/-- Witness for C1 at the concrete input `K = N = 1`, `U = 0`, `N_k = (1)`,
`f = 0`, `tol = 1`; the residual there is exactly `0`. -/
theorem mbar_self_consistency_residual_witness :
    |f1 0 - mbarMap U1 Nk1 f1 0| ≤ 1 := by
  have hconv : SolveConverged U1 Nk1 1 f1 := by
    intro k
    simp [SolveConverged, mbarMap, mbarDenom, logsumexp, U1, Nk1, f1]
  have h := mbar_self_consistency_residual U1 Nk1 1 f1 one_pos hconv 0
  simpa [mbarMap, mbarDenom, logsumexp] using h

/-- Claim C2: a reweighting query with zero observables is accepted and
returns the length-1 value vector `[f_target − f_ref]` and the 1×1 covariance
`[[Θ'[0][0] + Θ'[1][1] − 2·Θ'[0][1]]]` of the two-state augmented problem. -/
theorem reweight_zero_observables_result {K N : ℕ} (U : Fin K → Fin N → ℝ)
    (Nk : Fin K → ℕ) (f : Fin K → ℝ) (unew : Fin N → ℝ) (ref : Fin K)
    (Th : Matrix (Fin 2) (Fin 2) ℝ) :
    (reweight0 U Nk f unew ref Th).1 0 =
      fhat U Nk f unew - fhat U Nk f (fun n => U ref n)
    ∧ (reweight0 U Nk f unew ref Th).2 0 0 = Th 0 0 + Th 1 1 - 2 * Th 0 1 := by
  constructor
  · show fhat U Nk f (u_ln U unew ref 0) - fhat U Nk f (u_ln U unew ref 1) = _
    simp [u_ln]
  · rfl

/-- Claim C3: for `n ≥ 1` observables the returned covariance is `Gᵀ·Θ·G`,
where the Jacobian `G` has exactly the stated nonzero pattern: `-1` and `1` at
rows `n+1` and `2n+1` of the `f_diff` column 0; `y_i − Amin_i` at row `i` and
`−(y_i − Amin_i)` at row `n+1+i` of column `i+1`; zero everywhere else. -/
theorem reweight_delta_method_jacobian (nO : ℕ) (hn : 1 ≤ nO)
    (yu Amin delta : Fin nO → ℝ) (hdelta : ∀ i, delta i = yu i - Amin i)
    (Th : Matrix (Fin (2 * (nO + 1))) (Fin (2 * (nO + 1))) ℝ) :
    reweightCov nO delta Th = (Gmat nO delta)ᵀ * Th * Gmat nO delta
    ∧ Gmat nO delta ⟨nO + 1, by omega⟩ ⟨0, by omega⟩ = -1
    ∧ Gmat nO delta ⟨2 * nO + 1, by omega⟩ ⟨0, by omega⟩ = 1
    ∧ (∀ i : Fin nO,
        Gmat nO delta ⟨(i : ℕ), by omega⟩ ⟨(i : ℕ) + 1, by omega⟩ = yu i - Amin i
        ∧ Gmat nO delta ⟨nO + 1 + (i : ℕ), by omega⟩ ⟨(i : ℕ) + 1, by omega⟩
            = -(yu i - Amin i))
    ∧ (∀ (r : Fin (2 * (nO + 1))) (c : Fin (nO + 1)),
        ¬((r : ℕ) = nO + 1 ∧ (c : ℕ) = 0) →
        ¬((r : ℕ) = 2 * nO + 1 ∧ (c : ℕ) = 0) →
        (r : ℕ) + 1 ≠ (c : ℕ) →
        ¬((r : ℕ) = nO + (c : ℕ) ∧ 1 ≤ (c : ℕ)) →
        Gmat nO delta r c = 0) := by
  refine ⟨rfl, ?_, ?_, ?_, ?_⟩
  · simp [Gmat]
  · have h1 : ¬(2 * nO + 1 = nO + 1) := by omega
    simp [Gmat, h1]
  · intro i
    have hib : (i : ℕ) < nO := i.isLt
    have hi1 : ¬((i : ℕ) = nO + 1) := by omega
    have hi2 : ¬((i : ℕ) = 2 * nO + 1) := by omega
    have hi3 : ¬((i : ℕ) + 1 = 0) := by omega
    have hi6 : ¬(nO + 1 + (i : ℕ) + 1 = (i : ℕ) + 1) := by omega
    have hi7 : nO + 1 + (i : ℕ) = nO + ((i : ℕ) + 1) := by omega
    have hi8 : ¬(nO + ((i : ℕ) + 1) = (i : ℕ)) := by omega
    constructor
    · simp [Gmat, hi1, hi2, hi3]
      exact hdelta i
    · simp [Gmat, hi3, hi6, hi7, hi8]
      rw [hdelta i]
      ring
  · intro r c h1 h2 h3 h4
    simp [Gmat, h1, h2, h3, h4]

/-- Witness for C3 at the concrete input `n = 1`, `yu = (2)`, `Amin = (1)`,
`Θ = 0`. -/
theorem reweight_delta_method_jacobian_witness :
    reweightCov 1 ![1] 0 =
      (Gmat 1 ![1])ᵀ * (0 : Matrix (Fin (2 * (1 + 1))) (Fin (2 * (1 + 1))) ℝ) * Gmat 1 ![1]
    ∧ Gmat 1 ![1] ⟨1 + 1, by omega⟩ ⟨0, by omega⟩ = -1
    ∧ Gmat 1 ![1] ⟨2 * 1 + 1, by omega⟩ ⟨0, by omega⟩ = 1
    ∧ (∀ i : Fin 1,
        Gmat 1 ![1] ⟨(i : ℕ), by omega⟩ ⟨(i : ℕ) + 1, by omega⟩ = ![2] i - ![1] i
        ∧ Gmat 1 ![1] ⟨1 + 1 + (i : ℕ), by omega⟩ ⟨(i : ℕ) + 1, by omega⟩
            = -(![2] i - ![1] i))
    ∧ (∀ (r : Fin (2 * (1 + 1))) (c : Fin (1 + 1)),
        ¬((r : ℕ) = 1 + 1 ∧ (c : ℕ) = 0) →
        ¬((r : ℕ) = 2 * 1 + 1 ∧ (c : ℕ) = 0) →
        (r : ℕ) + 1 ≠ (c : ℕ) →
        ¬((r : ℕ) = 1 + (c : ℕ) ∧ 1 ≤ (c : ℕ)) →
        Gmat 1 ![1] r c = 0) :=
  reweight_delta_method_jacobian 1 le_rfl ![2] ![1] ![1]
    (fun i => by fin_cases i; norm_num) 0

/-- Claim C4: the weight matrix entries are `W[n][k] = exp (f_k − U[k][n] − c_n)`
with `c_n = logsumexp_j (log N_j + f_j − U[j][n])`; the same `c_n` is the
normalizer appearing inside the fixed-point map, and the per-block `u0`
computed at line 49 of `MBAR.py` equals the same normalizer up to the constant
`log (Σ_j N_j)` (so it is reused, not an independent quantity). -/
theorem weights_reuse_solve_denominator {K N : ℕ} (U : Fin K → Fin N → ℝ)
    (Nk : Fin K → ℕ) (f : Fin K → ℝ) (hK : 0 < K) (hNk : ∀ j, 0 < Nk j) :
    (∀ n k, W U Nk f n k = Real.exp (f k - U k n -
        Real.log (∑ j, Real.exp (Real.log (Nk j) + f j - U j n))))
    ∧ (∀ k, mbarMap U Nk f k =
        -(Real.log (∑ n, Real.exp (-U k n - mbarDenom U Nk f n))))
    ∧ (∀ n, u0 f Nk U n = Real.log (∑ j, (Nk j : ℝ)) - mbarDenom U Nk f n) := by
  have hne : Nonempty (Fin K) := ⟨⟨0, hK⟩⟩
  refine ⟨fun n k => rfl, fun k => rfl, ?_⟩
  intro n
  have hS : (0 : ℝ) < ∑ j, (Nk j : ℝ) :=
    Finset.sum_pos (fun j _ => by exact_mod_cast hNk j) Finset.univ_nonempty
  have hT : (0 : ℝ) < ∑ j, Real.exp (Real.log (Nk j) + f j - U j n) :=
    Finset.sum_pos (fun j _ => Real.exp_pos _) Finset.univ_nonempty
  have hterm : ∀ k : Fin K, Real.exp (flnpi f Nk k - U k n)
      = Real.exp (Real.log (Nk k) + f k - U k n) / (∑ j, (Nk j : ℝ)) := by
    intro k
    have hk : (0 : ℝ) < (Nk k : ℝ) := by exact_mod_cast hNk k
    rw [flnpi, Real.log_div hk.ne' hS.ne',
      show f k + (Real.log (Nk k) - Real.log (∑ j, (Nk j : ℝ))) - U k n
          = (Real.log (Nk k) + f k - U k n) - Real.log (∑ j, (Nk j : ℝ)) by ring,
      Real.exp_sub, Real.exp_log hS]
  rw [u0, logsumexp, Finset.sum_congr rfl fun k _ => hterm k, ← Finset.sum_div,
    Real.log_div hT.ne' hS.ne', mbarDenom, logsumexp]
  ring

/-- Witness for C4 at the concrete input `K = N = 1`, all data zero. -/
theorem weights_reuse_solve_denominator_witness :
    (∀ n k, W U1 Nk1 f1 n k = Real.exp (f1 k - U1 k n -
        Real.log (∑ j, Real.exp (Real.log (Nk1 j) + f1 j - U1 j n))))
    ∧ (∀ k, mbarMap U1 Nk1 f1 k =
        -(Real.log (∑ n, Real.exp (-U1 k n - mbarDenom U1 Nk1 f1 n))))
    ∧ (∀ n, u0 f1 Nk1 U1 n = Real.log (∑ j, (Nk1 j : ℝ)) - mbarDenom U1 Nk1 f1 n) :=
  weights_reuse_solve_denominator U1 Nk1 f1 one_pos fun _ => Nat.one_pos

/-- Claim C5: the overlap matrix of line 56,
`mixture.Overlap = mb.N_k * np.matmul(mb.W_nk.T, mb.W_nk)`, has entries
`O[i][j] = N_j · Σ_n W[n][i]·W[n][j]` (broadcasting multiplies column `j` of
the matrix product by `N_j`). -/
theorem overlap_matrix_formula {K N : ℕ} (U : Fin K → Fin N → ℝ)
    (Nk : Fin K → ℕ) (f : Fin K → ℝ) (i j : Fin K) :
    Overlap U Nk f i j = (Nk j : ℝ) * ∑ n, W U Nk f n i * W U Nk f n j :=
  overlap_apply U Nk f i j

/-- Claim C6, amended: the covariance matrix is symmetric (its SVD form has
symmetric middle factors: `Σ` is diagonal and the pseudo-inverse of a
symmetric matrix is symmetric); the overlap matrix satisfies only the scaled
symmetry `N_i·O[i][j] = N_j·O[j][i]`, hence `O[i][j] = O[j][i]` whenever
`N_i = N_j` — in particular when all sample counts are equal — but not in
general for unequal sample counts. -/
theorem theta_symmetric_overlap_scaled {K N L : ℕ} (U : Fin K → Fin N → ℝ)
    (Nk : Fin K → ℕ) (f : Fin K → ℝ) (V Sd Pm : Matrix (Fin L) (Fin L) ℝ)
    (hPm : Pmᵀ = Pm) (hS : Sdᵀ = Sd) :
    (∀ a b, thetaSVD V Sd Pm a b = thetaSVD V Sd Pm b a)
    ∧ (∀ i j, (Nk i : ℝ) * Overlap U Nk f i j = (Nk j : ℝ) * Overlap U Nk f j i)
    ∧ (∀ i j, Nk i = Nk j → Overlap U Nk f i j = Overlap U Nk f j i) := by
  have hsym := thetaSVD_symm V Sd Pm hPm hS
  have hsum : ∀ i j : Fin K, (∑ n, W U Nk f n j * W U Nk f n i)
      = ∑ n, W U Nk f n i * W U Nk f n j :=
    fun i j => Finset.sum_congr rfl fun n _ => mul_comm _ _
  refine ⟨?_, ?_, ?_⟩
  · intro a b
    have h := congrFun (congrFun hsym a) b
    rw [Matrix.transpose_apply] at h
    exact h.symm
  · intro i j
    rw [overlap_apply, overlap_apply, hsum i j]
    ring
  · intro i j hij
    rw [overlap_apply, overlap_apply, hsum i j, hij]

/-- Witness for C6 at the concrete input `K = N = L = 1`, identity factors. -/
theorem theta_symmetric_overlap_scaled_witness :
    (∀ a b, thetaSVD (1 : Matrix (Fin 1) (Fin 1) ℝ) 1 1 a b = thetaSVD 1 1 1 b a)
    ∧ (∀ i j, (Nk1 i : ℝ) * Overlap U1 Nk1 f1 i j = (Nk1 j : ℝ) * Overlap U1 Nk1 f1 j i)
    ∧ (∀ i j, Nk1 i = Nk1 j → Overlap U1 Nk1 f1 i j = Overlap U1 Nk1 f1 j i) :=
  theta_symmetric_overlap_scaled U1 Nk1 f1 1 1 1 Matrix.transpose_one Matrix.transpose_one

/-- Counterexample to claim C6 as stated: for the valid two-state input
`U ≡ 0`, unequal sample counts `N_k = (1, 2)` and the exactly converged
`f = 0` (the self-consistency residual is exactly `0 ≤ 10⁻¹²`), the overlap
matrix returned by the solve is `[[1/3, 2/3], [1/3, 2/3]]`:
`O[0][1] = 2/3 ≠ 1/3 = O[1][0]`, far beyond floating tolerance, so `O` is not
symmetric when the per-state sample counts are unequal. -/
theorem overlap_asymmetry_counterexample :
    SolveConverged (fun _ _ => 0 : Fin 2 → Fin 3 → ℝ) ![1, 2] (1 / 10 ^ 12) (fun _ => 0)
    ∧ Overlap (fun _ _ => 0 : Fin 2 → Fin 3 → ℝ) ![1, 2] (fun _ => 0) 0 1 = 2 / 3
    ∧ Overlap (fun _ _ => 0 : Fin 2 → Fin 3 → ℝ) ![1, 2] (fun _ => 0) 1 0 = 1 / 3 := by
  have h3 : (0 : ℝ) < 3 := by norm_num
  have hden : ∀ n : Fin 3,
      mbarDenom (fun _ _ => 0 : Fin 2 → Fin 3 → ℝ) ![1, 2] (fun _ => 0) n = Real.log 3 := by
    intro n
    rw [mbarDenom, logsumexp, Fin.sum_univ_two]
    norm_num
    rw [Real.exp_log (by norm_num : (0 : ℝ) < 2)]
    norm_num
  have hW : ∀ (n : Fin 3) (k : Fin 2),
      W (fun _ _ => 0 : Fin 2 → Fin 3 → ℝ) ![1, 2] (fun _ => 0) n k = 3⁻¹ := by
    intro n k
    rw [W, hden]
    norm_num
    rw [Real.exp_neg, Real.exp_log h3]
    norm_num
  refine ⟨?_, ?_, ?_⟩
  · intro k
    have hmap : mbarMap (fun _ _ => 0 : Fin 2 → Fin 3 → ℝ) ![1, 2] (fun _ => 0) k = 0 := by
      rw [mbarMap, logsumexp]
      have harg : ∀ n : Fin 3,
          Real.exp (-(fun _ _ => 0 : Fin 2 → Fin 3 → ℝ) k n -
            mbarDenom (fun _ _ => 0 : Fin 2 → Fin 3 → ℝ) ![1, 2] (fun _ => 0) n) = 3⁻¹ := by
        intro n
        rw [hden]
        norm_num
        rw [Real.exp_neg, Real.exp_log h3]
        norm_num
      rw [Finset.sum_congr rfl fun n _ => harg n]
      norm_num [Fin.sum_univ_three]
    rw [hmap]
    norm_num
  · rw [overlap_apply]
    rw [Finset.sum_congr rfl fun n _ => by rw [hW n 0, hW n 1]]
    norm_num [Fin.sum_univ_three]
  · rw [overlap_apply]
    rw [Finset.sum_congr rfl fun n _ => by rw [hW n 1, hW n 0]]
    norm_num [Fin.sum_univ_three]

/-- Claim C7: gauge invariance.  Shifting every entry of `U` by a constant `c`
leaves the MBAR fixed-point map, the set of converged solutions (hence all
free-energy differences), the weight matrix, and the overlap matrix exactly
unchanged; since the asymptotic covariance is a function of the weight matrix
and the sample counts, `Theta` is unchanged as well. -/
theorem gauge_invariance_shift {K N : ℕ} (U : Fin K → Fin N → ℝ)
    (Nk : Fin K → ℕ) (tol c : ℝ) (hK : 0 < K) :
    (∀ f k, mbarMap (fun k n => U k n + c) Nk f k = mbarMap U Nk f k)
    ∧ (∀ f, SolveConverged (fun k n => U k n + c) Nk tol f ↔ SolveConverged U Nk tol f)
    ∧ (∀ f, Wmat (fun k n => U k n + c) Nk f = Wmat U Nk f)
    ∧ (∀ f, Overlap (fun k n => U k n + c) Nk f = Overlap U Nk f) := by
  have hmap : ∀ f k, mbarMap (fun k n => U k n + c) Nk f k = mbarMap U Nk f k := by
    intro f k
    have harg : (fun n => -(U k n + c) - mbarDenom (fun k n => U k n + c) Nk f n)
        = fun n => -U k n - mbarDenom U Nk f n := by
      funext n
      rw [mbarDenom_shift hK]
      ring
    rw [mbarMap, mbarMap, harg]
  have hW : ∀ f, Wmat (fun k n => U k n + c) Nk f = Wmat U Nk f := by
    intro f
    funext n k
    show W (fun k n => U k n + c) Nk f n k = W U Nk f n k
    rw [W, W, mbarDenom_shift hK]
    ring_nf
  refine ⟨hmap, ?_, hW, ?_⟩
  · intro f
    constructor <;> intro hs k <;> have hk := hs k
    · rwa [hmap f k] at hk
    · rwa [← hmap f k] at hk
  · intro f
    funext i j
    show (Nk j : ℝ) * _ = (Nk j : ℝ) * _
    rw [hW f]

/-- Witness for C7 at the concrete input `K = N = 1`, `c = 1`. -/
theorem gauge_invariance_shift_witness :
    (∀ f k, mbarMap (fun k n => U1 k n + 1) Nk1 f k = mbarMap U1 Nk1 f k)
    ∧ (∀ f, SolveConverged (fun k n => U1 k n + 1) Nk1 1 f ↔ SolveConverged U1 Nk1 1 f)
    ∧ (∀ f, Wmat (fun k n => U1 k n + 1) Nk1 f = Wmat U1 Nk1 f)
    ∧ (∀ f, Overlap (fun k n => U1 k n + 1) Nk1 f = Overlap U1 Nk1 f) :=
  gauge_invariance_shift U1 Nk1 1 1 one_pos

/-- Claim C8: identity reweighting.  If the target potential row equals the
potential row of the reference state `r`, the zero-observable reweighting
query returns `f_diff = 0`, and the variance `Θ'[0][0] + Θ'[1][1] − 2·Θ'[0][1]`
vanishes for the SVD-form augmented covariance: the two augmented states have
identical weight columns, so the direction `(1, −1)` lies in the kernel of
`Wᵀ·W` and is annihilated by `Σ·Vᵀ`, whatever the pseudo-inverse factor is.
(The factor `P = pinv(I − Σ·Vᵀ·diag(N)·V·Σ)` of a symmetric matrix is
symmetric, hypothesis `hPm`.) -/
theorem identity_reweighting_zero {K N : ℕ} (U : Fin K → Fin N → ℝ)
    (Nk : Fin K → ℕ) (f : Fin K → ℝ) (r : Fin K) (unew : Fin N → ℝ)
    (V Sd Pm : Matrix (Fin 2) (Fin 2) ℝ)
    (hsame : unew = fun n => U r n)
    (hV : Vᵀ * V = 1)
    (hdiag : ∀ a b : Fin 2, a ≠ b → Sd a b = 0)
    (hPm : Pmᵀ = Pm)
    (hM : (Waug U Nk f (u_ln U unew r))ᵀ * Waug U Nk f (u_ln U unew r)
        = V * (Sd * Sd) * Vᵀ) :
    (reweight0 U Nk f unew r (thetaSVD V Sd Pm)).1 0 = 0
    ∧ (reweight0 U Nk f unew r (thetaSVD V Sd Pm)).2 0 0 = 0 := by
  have hrows : u_ln U unew r 0 = u_ln U unew r 1 := by
    rw [u_ln]
    rw [Matrix.cons_val_zero, Matrix.cons_val_one, Matrix.head_cons, hsame]
  constructor
  · show fhat U Nk f (u_ln U unew r 0) - fhat U Nk f (u_ln U unew r 1) = 0
    rw [hrows, sub_self]
  · have hw : ∀ n, Waug U Nk f (u_ln U unew r) n 0 = Waug U Nk f (u_ln U unew r) n 1 := by
      intro n
      show Real.exp (fhat U Nk f (u_ln U unew r 0) - u_ln U unew r 0 n - _)
          = Real.exp (fhat U Nk f (u_ln U unew r 1) - u_ln U unew r 1 n - _)
      rw [hrows]
    have hMe : (V * (Sd * Sd) * Vᵀ) *ᵥ ![(1 : ℝ), -1] = 0 := by
      rw [← hM]
      funext a
      rw [mulVec_entry, Fin.sum_univ_two, Pi.zero_apply, Matrix.cons_val_zero,
        Matrix.cons_val_one, Matrix.head_cons]
      have h01 : ((Waug U Nk f (u_ln U unew r))ᵀ * Waug U Nk f (u_ln U unew r)) a 0
          = ((Waug U Nk f (u_ln U unew r))ᵀ * Waug U Nk f (u_ln U unew r)) a 1 := by
        rw [Matrix.mul_apply, Matrix.mul_apply]
        refine Finset.sum_congr rfl fun n _ => ?_
        rw [hw n]
      rw [h01]
      ring
    show thetaSVD V Sd Pm 0 0 + thetaSVD V Sd Pm 1 1 - 2 * thetaSVD V Sd Pm 0 1 = 0
    exact thetaSVD_kernel_quadform V Sd Pm hV hdiag hPm hMe

/-- Witness for C8 at the concrete input `K = N = 1`, all-zero mixture,
target row equal to the row of state 0, with the explicit spectral data
`V = (√2/2)·[[1,1],[1,−1]]`, `Σ = diag(√2, 0)`, `P = 0` of the augmented
`WᵀW = [[1,1],[1,1]]`. -/
theorem identity_reweighting_zero_witness :
    (reweight0 U1 Nk1 f1 (fun _ => 0) 0 (thetaSVD Vw Sw 0)).1 0 = 0
    ∧ (reweight0 U1 Nk1 f1 (fun _ => 0) 0 (thetaSVD Vw Sw 0)).2 0 0 = 0 := by
  have h2 : Real.sqrt 2 * Real.sqrt 2 = 2 := Real.mul_self_sqrt (by norm_num)
  have v00 : Vw 0 0 = Real.sqrt 2 / 2 := rfl
  have v01 : Vw 0 1 = Real.sqrt 2 / 2 := rfl
  have v10 : Vw 1 0 = Real.sqrt 2 / 2 := rfl
  have v11 : Vw 1 1 = -(Real.sqrt 2 / 2) := rfl
  have s00 : Sw 0 0 = Real.sqrt 2 := rfl
  have s01 : Sw 0 1 = (0 : ℝ) := rfl
  have s10 : Sw 1 0 = (0 : ℝ) := rfl
  have s11 : Sw 1 1 = (0 : ℝ) := rfl
  have hV : Vwᵀ * Vw = 1 := by
    have entry : ∀ a b : Fin 2, (Vwᵀ * Vw) a b = (1 : Matrix (Fin 2) (Fin 2) ℝ) a b := by
      rw [Fin.forall_fin_two]
      refine ⟨?_, ?_⟩ <;> rw [Fin.forall_fin_two] <;> refine ⟨?_, ?_⟩ <;>
        rw [Matrix.mul_apply, Fin.sum_univ_two, Matrix.transpose_apply,
          Matrix.transpose_apply]
      · rw [v00, v10, Matrix.one_apply_eq]
        nlinarith [h2]
      · rw [v00, v01, v10, v11, Matrix.one_apply_ne (by decide)]
        ring
      · rw [v01, v00, v11, v10, Matrix.one_apply_ne (by decide)]
        ring
      · rw [v01, v11, Matrix.one_apply_eq]
        nlinarith [h2]
    funext a b
    exact entry a b
  have hdiag : ∀ a b : Fin 2, a ≠ b → Sw a b = 0 := by
    rw [Fin.forall_fin_two]
    refine ⟨?_, ?_⟩ <;> rw [Fin.forall_fin_two] <;> refine ⟨?_, ?_⟩
    · intro hab
      exact absurd rfl hab
    · intro hab
      exact s01
    · intro hab
      exact s10
    · intro hab
      exact absurd rfl hab
  have hWg : ∀ (n : Fin 1) (a : Fin 2),
      Waug U1 Nk1 f1 (u_ln U1 (fun _ => 0) 0) n a = 1 := by
    intro n a
    have hrow : u_ln U1 (fun _ => 0) 0 a = fun _ : Fin 1 => (0 : ℝ) := by
      fin_cases a <;> rfl
    show Real.exp (fhat U1 Nk1 f1 (u_ln U1 (fun _ => 0) 0 a)
        - u_ln U1 (fun _ => 0) 0 a n - mbarDenom U1 Nk1 f1 n) = 1
    rw [hrow]
    have hden : ∀ m : Fin 1, mbarDenom U1 Nk1 f1 m = 0 := by
      intro m
      rw [mbarDenom, logsumexp]
      simp [U1, Nk1, f1]
    have hfh : fhat U1 Nk1 f1 (fun _ : Fin 1 => (0 : ℝ)) = 0 := by
      rw [fhat, logsumexp]
      simp [hden]
    rw [hfh, hden]
    norm_num
  have hM : (Waug U1 Nk1 f1 (u_ln U1 (fun _ => 0) 0))ᵀ *
      Waug U1 Nk1 f1 (u_ln U1 (fun _ => 0) 0) = Vw * (Sw * Sw) * Vwᵀ := by
    funext a b
    have hL : ((Waug U1 Nk1 f1 (u_ln U1 (fun _ => 0) 0))ᵀ *
        Waug U1 Nk1 f1 (u_ln U1 (fun _ => 0) 0)) a b = 1 := by
      rw [Matrix.mul_apply, Fin.sum_univ_one]
      show Waug U1 Nk1 f1 (u_ln U1 (fun _ => 0) 0) 0 a *
          Waug U1 Nk1 f1 (u_ln U1 (fun _ => 0) 0) 0 b = 1
      rw [hWg, hWg, mul_one]
    rw [hL]
    have hSS00 : (Sw * Sw) 0 0 = 2 := by
      rw [Matrix.mul_apply, Fin.sum_univ_two, s00, s01, s10, h2, mul_zero, add_zero]
    have hSS01 : (Sw * Sw) 0 1 = 0 := by
      rw [Matrix.mul_apply, Fin.sum_univ_two, s01, s11, mul_zero, mul_zero, add_zero]
    have hSS10 : (Sw * Sw) 1 0 = 0 := by
      rw [Matrix.mul_apply, Fin.sum_univ_two, s10, s11, zero_mul, zero_mul, add_zero]
    have hSS11 : (Sw * Sw) 1 1 = 0 := by
      rw [Matrix.mul_apply, Fin.sum_univ_two, s10, s11, zero_mul, mul_zero, add_zero]
    have hright : ∀ a b : Fin 2, (Vw * (Sw * Sw) * Vwᵀ) a b = 1 := by
      have hmid : ∀ a b : Fin 2, (Vw * (Sw * Sw)) a b
          = Vw a 0 * (Sw * Sw) 0 b + Vw a 1 * (Sw * Sw) 1 b := by
        intro a b
        rw [Matrix.mul_apply, Fin.sum_univ_two]
      rw [Fin.forall_fin_two]
      refine ⟨?_, ?_⟩ <;> rw [Fin.forall_fin_two] <;> refine ⟨?_, ?_⟩ <;>
        rw [Matrix.mul_apply, Fin.sum_univ_two, Matrix.transpose_apply,
          Matrix.transpose_apply, hmid, hmid, hSS00, hSS01, hSS10, hSS11]
      · simp only [v00, v01, v10, v11]
        nlinarith [h2]
      · simp only [v00, v01, v10, v11]
        nlinarith [h2]
      · simp only [v00, v01, v10, v11]
        nlinarith [h2]
      · simp only [v00, v01, v10, v11]
        nlinarith [h2]
    rw [hright a b]
  exact identity_reweighting_zero U1 Nk1 f1 0 (fun _ => 0) Vw Sw 0 rfl hV hdiag
    Matrix.transpose_zero hM

/-- Claim C9: the reweight entry fails with `DimensionMismatchError`, before
any computation, exactly when some observable vector length differs from the
pooled sample count `N`; when all lengths match it succeeds and returns the
computed result. -/
theorem observable_length_validation {α : Type} (N : ℕ) (ys : List (List ℝ))
    (compute : Unit → α) :
    (guardedReweight N ys compute = Except.error ReweightError.dimensionMismatch
      ↔ ∃ y ∈ ys, y.length ≠ N)
    ∧ ((∀ y ∈ ys, y.length = N) →
        guardedReweight N ys compute = Except.ok (compute ())) := by
  constructor
  · rw [guardedReweight, checkObservableLengths]
    by_cases h : (ys.all fun y => y.length == N) = true
    · rw [if_pos h]
      constructor
      · intro hcontra
        exact absurd hcontra (by simp [Except.map])
      · rintro ⟨y, hy, hlen⟩
        exact absurd (by simpa using List.all_eq_true.mp h y hy) hlen
    · rw [if_neg h]
      refine ⟨fun _ => ?_, fun _ => rfl⟩
      by_contra hall
      push_neg at hall
      exact h (List.all_eq_true.mpr fun y hy => by simpa using hall y hy)
  · intro hall
    rw [guardedReweight, checkObservableLengths,
      if_pos (List.all_eq_true.mpr fun y hy => by simpa using hall y hy)]
    rfl

/-- Witness for C9: a query with a single length-1 observable vector against
pooled sample count `N = 1`. -/
theorem observable_length_validation_witness :
    (guardedReweight 1 [[(0 : ℝ)]] (fun _ => (0 : ℕ)) =
        Except.error ReweightError.dimensionMismatch
      ↔ ∃ y ∈ [[(0 : ℝ)]], y.length ≠ 1)
    ∧ ((∀ y ∈ [[(0 : ℝ)]], y.length = 1) →
        guardedReweight 1 [[(0 : ℝ)]] (fun _ => (0 : ℕ)) = Except.ok 0) :=
  observable_length_validation 1 [[0]] fun _ => 0

/-- Claim C10: in each sample block, the per-sample probability matrix `P`
built at line 50 is normalized over states: for every sample `n` of the block,
`Σ_k P[k][n] = 1`, because every entry reuses the same per-sample normalizer
`u0[n] = −logsumexp_k (flnpi_k − u_k[n])`. -/
theorem P_normalized_over_states {K M : ℕ} (f : Fin K → ℝ) (Nk : Fin K → ℕ)
    (ublk : Fin K → Fin M → ℝ) (hK : 0 < K) (n : Fin M) :
    ∑ k, P f Nk ublk k n = 1 := by
  have hne : Nonempty (Fin K) := ⟨⟨0, hK⟩⟩
  have hpos : (0 : ℝ) < ∑ k, Real.exp (flnpi f Nk k - ublk k n) :=
    Finset.sum_pos (fun k _ => Real.exp_pos _) Finset.univ_nonempty
  have hsplit : ∀ k, P f Nk ublk k n =
      Real.exp (flnpi f Nk k - ublk k n) * Real.exp (u0 f Nk ublk n) := by
    intro k
    rw [P, Real.exp_add]
  calc ∑ k, P f Nk ublk k n
      = (∑ k, Real.exp (flnpi f Nk k - ublk k n)) * Real.exp (u0 f Nk ublk n) := by
        rw [Finset.sum_congr rfl fun k _ => hsplit k, Finset.sum_mul]
    _ = 1 := by
        rw [u0, logsumexp, Real.exp_neg, Real.exp_log hpos]
        exact mul_inv_cancel₀ (ne_of_gt hpos)

/-- Witness for C10 at the concrete input `K = M = 1`, all data zero. -/
theorem P_normalized_over_states_witness :
    ∑ k, P f1 Nk1 U1 k 0 = 1 :=
  P_normalized_over_states f1 Nk1 U1 one_pos 0

end MICS
